import Mathlib

/-!
Verification of the VoiceTuber scene-graph core against its specification.

The development shallowly embeds the project persistence layer
(App::savePrj / App::loadPrj together with the Node saveAll/loadAll record
format), the undo/redo manager, the App::addNode operation, the render
propagation of Sprite::render and Chat::render, the chat text deduplication
heuristic (dedup / eq), Chat::getVoice, and the Sprite UI clamping
(Sprite::renderUi, Sprite::w, Sprite::h, Sprite::isTransparent).
-/

set_option maxHeartbeats 1000000
set_option linter.unusedVariables false
set_option linter.unnecessarySeqFocus false

namespace VT

/-- Serialization token. Modelled from the spec: the binary encode/decode
primitives (the ser/deser codec of section 2) are not under src/; a stream is
modelled as a list of scalar or string tokens. -/
inductive Tok where
| nat : Nat → Tok
| str : String → Tok
deriving DecidableEq

/-- A persisted node tree: type name, instance name, the type-specific payload
written by the virtual save hook, and the ordered children. Modelled from the
spec: the Node base class (section 4.1) is not under src/. -/
inductive PNode where
| mk : String → String → List Tok → List PNode → PNode

def PNode.className : PNode → String
  | .mk c _ _ _ => c

def PNode.name : PNode → String
  | .mk _ n _ _ => n

def PNode.payload : PNode → List Tok
  | .mk _ _ p _ => p

def PNode.children : PNode → List PNode
  | .mk _ _ _ ch => ch

/-- Modelled from the spec: the SaveFactory (section 4.2) maps a type-name
string to a constructor; in the model each registered class also carries the
number of payload tokens its virtual save hook writes, since each concrete
variant defines its own fixed field layout (section 6). -/
abbrev Factory := List (String × Nat)

def lookupArity : Factory → String → Option Nat
  | [], _ => none
  | (c, a) :: rest, s => if c = s then some a else lookupArity rest s

mutual
/-- Modelled from the spec: Node::saveAll (section 4.1) writes type name,
instance name, the instance payload, then the child count and each child
record in order (section 6 layout). -/
def saveAll : PNode → List Tok
  | .mk c n p ch => Tok.str c :: Tok.str n :: (p ++ Tok.nat ch.length :: saveForest ch)

def saveForest : List PNode → List Tok
  | [] => []
  | t :: ts => saveAll t ++ saveForest ts
end

mutual
/-- Modelled from the spec: Node::loadAll (section 4.1) for a node whose type
name and instance name were already consumed and passed to the factory; it
reads the payload, then the child count, then for each child a type name and
instance name followed by the recursive record. The fuel argument bounds the
recursion depth of the model; failure (unknown type, truncated stream) is
none. -/
def loadNode (f : Factory) : Nat → String → String → List Tok → Option (PNode × List Tok)
  | 0, _, _, _ => none
  | fuel + 1, c, n, strm =>
    match lookupArity f c with
    | none => none
    | some a =>
      if a ≤ strm.length then
        match strm.drop a with
        | Tok.nat cnt :: rest =>
          match loadForest f fuel cnt rest with
          | some (ch, rest2) => some (PNode.mk c n (strm.take a) ch, rest2)
          | none => none
        | _ => none
      else none

def loadForest (f : Factory) : Nat → Nat → List Tok → Option (List PNode × List Tok)
  | _, 0, strm => some ([], strm)
  | 0, _ + 1, _ => none
  | fuel + 1, cnt + 1, strm =>
    match strm with
    | Tok.str c :: Tok.str n :: rest =>
      match loadNode f fuel c n rest with
      | some (t, rest2) =>
        match loadForest f fuel cnt rest2 with
        | some (ts, rest3) => some (t :: ts, rest3)
        | none => none
      | none => none
    | _ => none
end

/-- The supported project format version, static const ver in
src/unnamed/part_001. -/
def ver : Nat := 2

/-- App::savePrj from src/unnamed/part_001: write the version constant, then
the root saveAll record. -/
def savePrj (t : PNode) : List Tok := Tok.nat ver :: saveAll t

/-- Modelled from the spec: the fresh empty Root node installed by
App::loadPrj on fallback; the Root constructor is not under src/. -/
def freshRoot : PNode := PNode.mk "Root" "root" [] []

/-- App::loadPrj from src/unnamed/part_001. The argument none models a
project file that cannot be opened. A version mismatch or an unopenable file
installs a fresh Root; otherwise the type name and instance name are read,
the factory constructs the root, and loadAll hydrates the subtree. A thrown
constructor error or malformed stream is modelled as none. -/
def loadPrj (f : Factory) (file : Option (List Tok)) : Option PNode :=
  match file with
  | none => some freshRoot
  | some strm =>
    match strm with
    | Tok.nat v :: rest =>
      if v ≠ ver then some freshRoot
      else
        match rest with
        | Tok.str c :: Tok.str n :: rest2 =>
          match loadNode f (rest2.length + 1) c n rest2 with
          | some (t, _) => some t
          | none => none
        | _ => none
    | _ => none

mutual
/-- A tree is well formed for a factory when every type name in it is
registered with the arity of its payload. -/
def wfNode (f : Factory) : PNode → Bool
  | .mk c _ p ch => (lookupArity f c == some p.length) && wfForest f ch

def wfForest (f : Factory) : List PNode → Bool
  | [] => true
  | t :: ts => wfNode f t && wfForest f ts
end

mutual
/-- Fuel sufficient for loadNode to reconstruct the given tree. -/
def needFuelN : PNode → Nat
  | .mk _ _ _ ch => needFuelF ch + 1

def needFuelF : List PNode → Nat
  | [] => 0
  | t :: ts => max (needFuelN t) (needFuelF ts) + 1
end

/-- Concrete factory used by the witnesses. -/
def demoFactory : Factory := [("Root", 0), ("Sprite", 2), ("Chat", 1)]

/-- Concrete node tree used by the witnesses. -/
def demoTree : PNode :=
  PNode.mk "Root" "root" []
    [PNode.mk "Sprite" "cat.png" [Tok.nat 3, Tok.nat 4]
      [PNode.mk "Chat" "mika314" [Tok.str "voice"] []],
     PNode.mk "Sprite" "dog.png" [Tok.nat 1, Tok.nat 1] []]

/-- Modelled from the spec: an undo record (section 4.2) is a pair of
zero-argument closures over the application state; the manager source
(undo.hpp) is not under src/. -/
structure UndoAction (S : Type) where
  doFn : S → S
  undoFn : S → S

/-- Modelled from the spec: the undo manager (section 4.3) holds the current
state together with the done and undone stacks. -/
structure UndoState (S : Type) where
  state : S
  done : List (UndoAction S)
  undone : List (UndoAction S)

/-- Modelled from the spec: record executes the forward closure immediately,
pushes the pair onto the done stack and clears the undone stack. -/
def record {S : Type} (a : UndoAction S) (u : UndoState S) : UndoState S :=
  { state := a.doFn u.state, done := a :: u.done, undone := [] }

/-- Modelled from the spec: undo is a no-op on an empty done stack, else pops
the top pair, runs its undo closure and pushes the pair onto undone. -/
def undo {S : Type} (u : UndoState S) : UndoState S :=
  match u.done with
  | [] => u
  | a :: rest => { state := a.undoFn u.state, done := rest, undone := a :: u.undone }

/-- Modelled from the spec: redo is symmetric to undo and replays the forward
closure. -/
def redo {S : Type} (u : UndoState S) : UndoState S :=
  match u.undone with
  | [] => u
  | a :: rest => { state := a.doFn u.state, done := a :: u.done, undone := rest }

def hasUndo {S : Type} (u : UndoState S) : Bool := !u.done.isEmpty

def hasRedo {S : Type} (u : UndoState S) : Bool := !u.undone.isEmpty

/-- A sequence of record calls, first element recorded first. -/
def recordList {S : Type} : List (UndoAction S) → UndoState S → UndoState S
  | [], u => u
  | a :: rest, u => recordList rest (record a u)

/-- n successive undo calls. -/
def undoN {S : Type} : Nat → UndoState S → UndoState S
  | 0, u => u
  | n + 1, u => undoN n (undo u)

/-- Concrete action used by the C3 witness: add five. -/
def actAdd5 : UndoAction Int := { doFn := fun s => s + 5, undoFn := fun s => s - 5 }

/-- Concrete action used by the C3 witness: add seven. -/
def actAdd7 : UndoAction Int := { doFn := fun s => s + 7, undoFn := fun s => s - 7 }

/-- A scene-graph tree where each node carries only its identity; used to
model the tree-shape mutations performed by App::addNode and its recorded
closures. Modelled from the spec: the Node base class (section 4.1) owns the
ordered child list; node identity stands for the C++ object identity. -/
inductive IdTree where
| mk : Nat → List IdTree → IdTree

def IdTree.nid : IdTree → Nat
  | .mk i _ => i

mutual
/-- Modelled from the spec: Node::addChild appends the new child to the child
list of the node with the given identity, preserving insertion order. -/
def attachUnder (p : Nat) (child : IdTree) : IdTree → IdTree
  | .mk i ch => if i = p then .mk i (ch ++ [child]) else .mk i (attachUnderF p child ch)

def attachUnderF (p : Nat) (child : IdTree) : List IdTree → List IdTree
  | [] => []
  | t :: ts => attachUnder p child t :: attachUnderF p child ts
end

mutual
/-- Modelled from the spec: Node::del removes the node with the given
identity (with its subtree) from the child list of its parent. -/
def removeId (i : Nat) : IdTree → IdTree
  | .mk j ch => .mk j (removeIdF i ch)

def removeIdF (i : Nat) : List IdTree → List IdTree
  | [] => []
  | t :: ts => if t.nid = i then removeIdF i ts else removeId i t :: removeIdF i ts
end

mutual
def containsId (i : Nat) : IdTree → Bool
  | .mk j ch => (j == i) || containsIdF i ch

def containsIdF (i : Nat) : List IdTree → Bool
  | [] => false
  | t :: ts => containsId i t || containsIdF i ts
end

/-- The mutable application state the App::addNode closures touch: the node
tree owned by root and the current selection (by node identity, none for
null). -/
structure AppCore where
  root : IdTree
  selected : Option Nat

/-- The pair of closures recorded by App::addNode in src/unnamed/part_001.
The forward closure captures the new node and the parent chosen at record
time (the selected node if any, else root) and attaches the node there,
selecting it. The inverse closure runs Node::del on the node selected at the
time it is invoked (the captured node is retained only for ownership) and
restores the selection captured at record time. A null selection at undo
time would dereference null in the source and is modelled as leaving the
tree unchanged. -/
def addNodeAction (nodeId : Nat) (oldSelected : Option Nat) (parentId : Nat) :
    UndoAction AppCore :=
  { doFn := fun s =>
      { root := attachUnder parentId (IdTree.mk nodeId []) s.root, selected := some nodeId },
    undoFn := fun s =>
      { root :=
          match s.selected with
          | some sel => removeId sel s.root
          | none => s.root,
        selected := oldSelected } }

/-- The application state around the undo manager: the managed core, the
postponed UI actions (error dialogs) and a counter supplying fresh node
identities for constructed nodes. -/
structure App where
  u : UndoState AppCore
  postponed : List String
  nextId : Nat

/-- The message dialog text App::addNode postpones when the factory
constructor throws. -/
def ctorErrMsg (class_ : String) : String := "Error: unknown type " ++ class_

/-- App::addNode from src/unnamed/part_001. The registered type names stand
for the SaveFactory; an unregistered name makes the constructor throw, which
addNode catches, postponing an error dialog and committing nothing. On
success it records the pair of closures built by addNodeAction, which
executes the forward closure immediately. -/
def addNode (reg : List String) (class_ : String) (name : String) (app : App) : App :=
  if class_ ∈ reg then
    let nodeId := app.nextId
    let oldSelected := app.u.state.selected
    let parentId :=
      match oldSelected with
      | some s => s
      | none => app.u.state.root.nid
    { u := record (addNodeAction nodeId oldSelected parentId) app.u,
      postponed := app.postponed,
      nextId := nodeId + 1 }
  else
    { app with postponed := app.postponed ++ [ctorErrMsg class_] }

/-- The Sprite state from sprite.cpp: the three UI-edited counters, the
current frame, and the texture dimensions and channel count of the queried
texture. -/
structure SpriteS where
  cols : Int
  rows : Int
  numFrames : Int
  frame : Int
  texW : Int
  texH : Int
  texCh : Int

/-- Sprite::renderUi from sprite.cpp: each ImGui::InputInt may store an
arbitrary edited value into cols, rows and numFrames, and the following
checks clamp each back to at least 1. -/
def spriteRenderUi (icols irows inumFrames : Int) (s : SpriteS) : SpriteS :=
  { s with
    cols := if icols < 1 then 1 else icols,
    rows := if irows < 1 then 1 else irows,
    numFrames := if inumFrames < 1 then 1 else inumFrames }

/-- The invariant Sprite::renderUi re-establishes. -/
def spriteInv (s : SpriteS) : Prop := 1 ≤ s.cols ∧ 1 ≤ s.rows ∧ 1 ≤ s.numFrames

/-- Sprite::w from sprite.cpp: texture width over cols. The float quotient is
abstracted to a truncated integer quotient; none models a zero divisor. -/
def spriteW (s : SpriteS) : Option Int :=
  if s.cols = 0 then none else some (s.texW.tdiv s.cols)

/-- Sprite::h from sprite.cpp: texture height over rows; none models a zero
divisor. -/
def spriteH (s : SpriteS) : Option Int :=
  if s.rows = 0 then none else some (s.texH.tdiv s.rows)

/-- Sprite::isTransparent from sprite.cpp. The imageData argument models the
texture pixel bytes (none when the texture keeps no CPU copy); the C++
truncation semantics of % and / on int is Int.tmod and Int.tdiv. A division
or remainder by zero is modelled as none. -/
def spriteIsTransparent (imageData : Option (Int → Int)) (s : SpriteS) (vx vy : Int) :
    Option Bool :=
  if s.texCh = 3 then some false
  else
    match spriteW s, spriteH s with
    | some w, some h =>
      if s.numFrames = 0 ∨ s.cols = 0 then none
      else
        let x := vx + ((s.frame.tmod s.numFrames).tmod s.cols) * w
        let y := vy + (s.rows - (s.frame.tmod s.numFrames).tdiv s.cols - 1) * h
        if x < 0 ∨ x ≥ s.texW ∨ y < 0 ∨ y ≥ s.texH then some true
        else
          match imageData with
          | some data => some (decide (data ((x + y * s.texW) * s.texCh + 3) < 127))
          | none => some false
    | _, _ => none

/-- Observable effects of a render call; drawing detail is abstracted, while
base marks the one call into Node::render that the claim counts. -/
inductive RenderEffect where
| quad : RenderEffect
| color : RenderEffect
| text : String → RenderEffect
| base : RenderEffect

def countBase : List RenderEffect → Nat
  | [] => 0
  | RenderEffect.base :: rest => countBase rest + 1
  | _ :: rest => countBase rest

/-- Sprite::render from sprite.cpp: emit the textured quad (the GL calls are
abstracted into one quad effect), then call the base Node::render
unconditionally. -/
def spriteRender (s : SpriteS) (dt : Int) (hovered selected : Option Nat) :
    List RenderEffect :=
  [RenderEffect.quad, RenderEffect.base]

/-- A chat message as used by Chat::render. -/
structure ChatMsg where
  displayName : String
  msg : String

/-- Whitespace extraction used by Chat::wrapText (operator>> on an
istringstream): maximal nonempty runs between spaces. -/
def splitWs (s : String) : List String :=
  (s.split fun c => c = ' ').filter fun w => w ≠ ""

/-- Loop body of Chat::wrapText from src/unnamed/part_000, running over the
remaining words with the current line; getSizeX models font getSize width. -/
def wrapTextAux (getSizeX : String → Int) (w : Int) :
    List String → Int → String → List String
  | [], _, line => if line = "" then [] else [line]
  | word :: rest, offset, line =>
    let tempLine := line ++ " " ++ word
    if getSizeX tempLine > w - offset then
      line :: wrapTextAux getSizeX w rest 0 word
    else
      wrapTextAux getSizeX w rest offset tempLine

/-- Chat::wrapText from src/unnamed/part_000: greedy wrap of the message
words against the chat width, the first line shortened by initOffset. -/
def wrapText (getSizeX : String → Int) (w : Int) (text : String) (initOffset : Int) :
    List String :=
  match splitWs text with
  | [] => []
  | first :: rest => wrapTextAux getSizeX w rest initOffset first

/-- Inner loop of Chat::render over the wrapped lines of one message in
reverse order: stop once y exceeds the chat height, draw each line, and on
the last iteration (the first wrapped line) draw the colored display name. -/
def chatLines (hgt dimY : Int) (dn : String) :
    List String → Int → List RenderEffect × Int
  | [], y => ([], y)
  | ln :: rest, y =>
    if y > hgt then ([], y)
    else
      let effs :=
        if rest.isEmpty then
          [RenderEffect.text ln, RenderEffect.color, RenderEffect.text dn]
        else [RenderEffect.text ln]
      let next := chatLines hgt dimY dn rest (y + dimY)
      (effs ++ next.1, next.2)

/-- One message iteration of Chat::render: measure the display name, wrap the
": "-prefixed message text with the name width as first-line offset, set the
draw color, and draw the wrapped lines bottom-up. -/
def chatRenderMsg (getSize : String → Int × Int) (wdt hgt : Int) (m : ChatMsg) (y : Int) :
    List RenderEffect × Int :=
  let dim := getSize m.displayName
  let wrapped := wrapText (fun t => (getSize t).1) wdt (": " ++ m.msg) dim.1
  let inner := chatLines hgt dim.2 m.displayName wrapped.reverse y
  (RenderEffect.color :: inner.1, inner.2)

/-- Outer loop of Chat::render over the messages in reverse order, stopping
once y exceeds the chat height. -/
def chatMsgsLoop (getSize : String → Int × Int) (wdt hgt : Int) :
    List ChatMsg → Int → List RenderEffect
  | [], _ => []
  | m :: rest, y =>
    let one := chatRenderMsg getSize wdt hgt m y
    if one.2 > hgt then one.1
    else one.1 ++ chatMsgsLoop getSize wdt hgt rest one.2

/-- Chat::render from src/unnamed/part_000: when the overlay is hidden it
calls the base Node::render and returns; otherwise it draws the message
overlay and then calls the base Node::render. -/
def chatRender (showChat : Bool) (getSize : String → Int × Int) (wdt hgt : Int)
    (msgs : List ChatMsg) (dt : Int) (hovered selected : Option Nat) :
    List RenderEffect :=
  if !showChat then [RenderEffect.base]
  else chatMsgsLoop getSize wdt hgt msgs.reverse 0 ++ [RenderEffect.base]

/-- The voicesMap lookup of Chat::getVoice (std::map::find). -/
def lookupVM : List (String × String) → String → Option String
  | [], _ => none
  | (k, v) :: rest, n => if k = n then some v else lookupVM rest n

/-- Chat::getVoice from src/unnamed/part_000: a mapped chatter name returns
its mapped voice; otherwise the voice is picked by hashing the name, xor 1,
modulo the voice count. std::hash is implementation defined and passed as an
argument; the out-of-bounds access that a modulo by zero would feed is
modelled as none. -/
def getVoice (voicesMap : List (String × String)) (voices : List String)
    (hash : String → Nat) (n : String) : Option String :=
  match lookupVM voicesMap n with
  | some v => some v
  | none => voices[(hash n ^^^ 1) % voices.length]?

/-- The static helper eq of src/unnamed/part_000: whether the word blocks of
length w starting at i and at j coincide, false whenever either block runs
past the end of the word list. -/
def eqW (words : List String) (i j w : Nat) : Bool :=
  if i + w > words.length then false
  else if j + w > words.length then false
  else (List.range w).all fun k => words.getD (i + k) "" == words.getD (j + k) ""

/-- The innermost loop of dedup: starting from repetition index r, count up
while the block at i + r * w still equals the block at i; returns the first
failing r. The fuel argument makes the model total; words.length + 1 steps
always reach a failure when w is at least 1. -/
def firstFailAux (words : List String) (i w : Nat) : Nat → Nat → Nat
  | 0, r => r
  | fuel + 1, r =>
    if eqW words i (i + r * w) w then firstFailAux words i w fuel (r + 1) else r

def firstFail (words : List String) (i w : Nat) : Nat :=
  firstFailAux words i w (words.length + 1) 1

/-- One scan of the dedup nest: the first block width w with 1 ≤ w and
w < words.length / 2 and the first start index i < words.length - w, in that
order, whose block repeats at least three times consecutively (the inner
loop fails first at r ≥ 3). -/
def findCollapse (words : List String) : Option (Nat × Nat) :=
  (List.range' 1 (words.length / 2 - 1)).findSome? fun w =>
    (List.range (words.length - w)).findSome? fun i =>
      if 3 ≤ firstFail words i w then some (w, i) else none

/-- The erase performed by dedup when the inner loop first fails at r ≥ 3:
remove the words from i + w up to i + r * w, keeping one block occurrence. -/
def collapseAt (words : List String) (w i : Nat) : List String :=
  words.take (i + w) ++ words.drop (i + firstFail words i w * w)

/-- The outer didUpdate fixed-point loop of dedup: apply the first collapse
found and rescan, until a full scan finds none. Each collapse removes at
least two words, so fuel equal to the initial word count suffices. -/
def dedupLoop : Nat → List String → List String
  | 0, words => words
  | fuel + 1, words =>
    match findCollapse words with
    | none => words
    | some (w, i) => dedupLoop fuel (collapseAt words w i)

/-- The std::getline loop of dedup over the remaining characters, carrying
the reversed characters of the token being read: a space delimiter ends the
token; at end of input getline fails, so a trailing delimiter adds no empty
token. -/
def getlineAux : List Char → List Char → List String
  | acc, [] => [String.mk acc.reverse]
  | acc, c :: rest =>
    if c = ' ' then
      String.mk acc.reverse ::
        (match rest with
         | [] => []
         | _ :: _ => getlineAux [] rest)
    else getlineAux (c :: acc) rest

/-- The word split of dedup: std::getline with a space delimiter over the
string, one token per getline success; the empty string yields no token at
all since the first getline already fails. -/
def splitGetline (s : String) : List String :=
  match s.data with
  | [] => []
  | c :: rest => getlineAux [] (c :: rest)

def dedupWords (s : String) : List String :=
  dedupLoop (splitGetline s).length (splitGetline s)

/-- The static dedup of src/unnamed/part_000: split on spaces, collapse
repeated word runs to a fixed point, join with single spaces. -/
def dedup (s : String) : String :=
  String.intercalate " " (dedupWords s)

/-- Multi-step collapse reachability: ws2 results from ws by finitely many
dedup collapse steps, each keeping one occurrence of a block that repeated
at least three times consecutively. -/
inductive CollapseStar : List String → List String → Prop where
| refl : ∀ ws, CollapseStar ws ws
| step : ∀ ws w i ws2, findCollapse ws = some (w, i) →
    CollapseStar (collapseAt ws w i) ws2 → CollapseStar ws ws2

/-- Concrete application state used by the C4 witness and the C5 evidence: a
root node 0 with one child node 5, nothing selected, empty undo stacks. -/
def demoApp : App :=
  { u := { state := { root := IdTree.mk 0 [IdTree.mk 5 []], selected := none },
           done := [], undone := [] },
    postponed := [], nextId := 1 }

/-- C5 scenario, record-time state: root 0 with child 5, empty selection. -/
def c5Record : AppCore := { root := IdTree.mk 0 [IdTree.mk 5 []], selected := none }

/-- C5 scenario: the action App::addNode records there for a fresh node 1
(parent is root 0 since nothing is selected). -/
def c5Action : UndoAction AppCore := addNodeAction 1 none 0

/-- C5 scenario: the state right after the forward closure ran. -/
def c5AfterDo : AppCore := c5Action.doFn c5Record

/-- C5 scenario: the same tree after the selection drifted to node 5 between
the do and undo invocations. -/
def c5Drifted : AppCore := { root := c5AfterDo.root, selected := some 5 }

/-- C5 scenario: the state the recorded undo closure produces from the
drifted state. -/
def c5AfterUndo : AppCore := c5Action.undoFn c5Drifted

/-- Concrete sprite state used by the C9 witness. -/
def demoSprite : SpriteS :=
  { cols := 2, rows := 2, numFrames := 4, frame := 1, texW := 64, texH := 64, texCh := 4 }

mutual
theorem needFuelN_le : ∀ t : PNode, needFuelN t + 2 ≤ (saveAll t).length
  | .mk c n p ch => by
    have h := needFuelF_le ch
    simp only [needFuelN, saveAll, List.length_cons, List.length_append]
    omega

theorem needFuelF_le : ∀ ts : List PNode, needFuelF ts ≤ (saveForest ts).length
  | [] => by simp [needFuelF, saveForest]
  | t :: ts => by
    have h1 := needFuelN_le t
    have h2 := needFuelF_le ts
    simp only [needFuelF, saveForest, List.length_append]
    rcases Nat.le_total (needFuelN t) (needFuelF ts) with h | h
    · rw [Nat.max_eq_right h]; omega
    · rw [Nat.max_eq_left h]; omega
end

theorem loadNode_saveAll (f : Factory) :
    ∀ fuel : Nat,
      (∀ (t : PNode) (rest : List Tok), needFuelN t ≤ fuel → wfNode f t = true →
        loadNode f fuel t.className t.name
          (t.payload ++ (Tok.nat t.children.length :: (saveForest t.children ++ rest))) =
          some (t, rest)) ∧
      (∀ (ts : List PNode) (rest : List Tok), needFuelF ts ≤ fuel → wfForest f ts = true →
        loadForest f fuel ts.length (saveForest ts ++ rest) = some (ts, rest)) := by
  intro fuel
  induction fuel with
  | zero =>
    constructor
    · intro t rest hle hwf
      obtain ⟨c, n, p, ch⟩ := t
      simp [needFuelN] at hle
    · intro ts rest hle hwf
      cases ts with
      | nil => simp [saveForest, loadForest]
      | cons t ts => simp [needFuelF] at hle
  | succ fuel ih =>
    constructor
    · intro t rest hle hwf
      obtain ⟨c, n, p, ch⟩ := t
      simp only [wfNode, Bool.and_eq_true, beq_iff_eq] at hwf
      obtain ⟨harity, hch⟩ := hwf
      simp only [needFuelN] at hle
      have hload := ih.2 ch rest (by omega) hch
      simp only [PNode.className, PNode.name, PNode.payload, PNode.children,
        loadNode, harity]
      rw [if_pos (by simp)]
      have hdrop :
          (p ++ (Tok.nat ch.length :: (saveForest ch ++ rest))).drop p.length =
            Tok.nat ch.length :: (saveForest ch ++ rest) := List.drop_left p _
      have htake :
          (p ++ (Tok.nat ch.length :: (saveForest ch ++ rest))).take p.length = p :=
        List.take_left p _
      rw [hdrop]
      simp only [hload, htake]
    · intro ts rest hle hwf
      cases ts with
      | nil => simp [saveForest, loadForest]
      | cons t ts =>
        obtain ⟨c, n, p, ch⟩ := t
        simp only [wfForest, Bool.and_eq_true] at hwf
        obtain ⟨hwt, hwts⟩ := hwf
        simp only [needFuelF] at hle
        have hmax := Nat.max_le.mp (by omega :
          max (needFuelN (PNode.mk c n p ch)) (needFuelF ts) ≤ fuel)
        have hnode := ih.1 (PNode.mk c n p ch) (saveForest ts ++ rest) hmax.1 hwt
        have hforest := ih.2 ts rest hmax.2 hwts
        simp only [PNode.className, PNode.name, PNode.payload, PNode.children] at hnode
        simp only [List.length_cons, saveForest, saveAll, List.cons_append,
          List.append_assoc] at hnode ⊢
        simp only [loadForest]
        rw [hnode]
        simp only [hforest]

/-- C1: saving a project (the version constant followed by the saveAll record
of the root) and loading the produced stream reconstructs the same tree:
every node keeps its type name, instance name, payload and child order. The
tree must be well formed for the factory, meaning every type name in it is
registered with the payload arity its save hook writes. -/
theorem savePrj_then_loadPrj (f : Factory) (t : PNode) (hwf : wfNode f t = true) :
    loadPrj f (some (savePrj t)) = some t := by
  obtain ⟨c, n, p, ch⟩ := t
  have hneed := needFuelN_le (PNode.mk c n p ch)
  have haux := (loadNode_saveAll f
    ((p ++ (Tok.nat ch.length :: (saveForest ch ++ []))).length + 1)).1
    (PNode.mk c n p ch) [] (by
      simp only [saveAll, List.length_cons] at hneed
      simp only [List.append_nil, List.length_append, List.length_cons] at hneed ⊢
      omega) hwf
  simp only [PNode.className, PNode.name, PNode.payload, PNode.children] at haux
  simp only [savePrj, saveAll, loadPrj, ver]
  rw [if_neg (by omega)]
  simp only [List.append_nil] at haux
  rw [haux]

/-- Witness for C1 at a concrete three-level tree and factory. -/
theorem savePrj_then_loadPrj_witness :
    wfNode demoFactory demoTree = true ∧
      loadPrj demoFactory (some (savePrj demoTree)) = some demoTree :=
  ⟨by decide, savePrj_then_loadPrj demoFactory demoTree (by decide)⟩

/-- C2: loading a stream whose leading version number differs from the
supported constant, and likewise loading when the project file cannot be
opened, does not fail: it discards the stream and installs a fresh empty
Root node. -/
theorem loadPrj_fallback (f : Factory) (v : Nat) (rest : List Tok) (hv : v ≠ ver) :
    loadPrj f (some (Tok.nat v :: rest)) = some freshRoot ∧
      loadPrj f none = some freshRoot := by
  constructor
  · simp [loadPrj, hv]
  · rfl

/-- Witness for C2 at version 7 against the supported version 2. -/
theorem loadPrj_fallback_witness :
    loadPrj [] (some [Tok.nat 7]) = some freshRoot ∧
      loadPrj [] none = some freshRoot :=
  loadPrj_fallback [] 7 [] (by decide)

theorem undoN_succ {S : Type} (n : Nat) (u : UndoState S) :
    undoN (n + 1) u = undo (undoN n u) := by
  induction n generalizing u with
  | zero => rfl
  | succ n ih =>
    show undoN (n + 1) (undo u) = undo (undoN (n + 1) u)
    rw [ih (undo u)]
    rfl

theorem undo_done_cons {S : Type} (y : UndoState S) (a : UndoAction S)
    (l : List (UndoAction S)) (h : y.done = a :: l) :
    undo y = { state := a.undoFn y.state, done := l, undone := a :: y.undone } := by
  obtain ⟨st, dn, ud⟩ := y
  simp only at h
  subst h
  rfl

theorem undoN_recordList_aux {S : Type} (acts : List (UndoAction S))
    (hinv : ∀ a ∈ acts, ∀ s, a.undoFn (a.doFn s) = s) :
    ∀ u : UndoState S,
      (undoN acts.length (recordList acts u)).state = u.state ∧
      (undoN acts.length (recordList acts u)).done = u.done := by
  induction acts with
  | nil => intro u; exact ⟨rfl, rfl⟩
  | cons a rest ih =>
    intro u
    have hinvrest : ∀ b ∈ rest, ∀ s, b.undoFn (b.doFn s) = s := fun b hb s =>
      hinv b (List.mem_cons_of_mem a hb) s
    have iha := ih hinvrest (record a u)
    simp only [recordList, List.length_cons]
    rw [undoN_succ]
    have hdone : (undoN rest.length (recordList rest (record a u))).done = a :: u.done := by
      have h2 := iha.2
      simpa [record] using h2
    rw [undo_done_cons _ a u.done hdone]
    refine ⟨?_, rfl⟩
    simp only
    rw [iha.1]
    simp only [record]
    exact hinv a (List.mem_cons_self a rest) u.state

/-- C3: for every starting state and every sequence of N record calls, each
recording a pair whose undo closure inverts its do closure (the UndoAction
contract of the data model), followed by exactly N undo calls, the final
state equals the state before the first record call. -/
theorem recordN_undoN_roundtrip {S : Type} (acts : List (UndoAction S)) (u : UndoState S)
    (hinv : ∀ a ∈ acts, ∀ s, a.undoFn (a.doFn s) = s) :
    (undoN acts.length (recordList acts u)).state = u.state :=
  (undoN_recordList_aux acts hinv u).1

/-- Witness for C3: two additive actions recorded then undone on state 0. -/
theorem recordN_undoN_roundtrip_witness :
    (undoN 2 (recordList [actAdd5, actAdd7]
      { state := (0 : Int), done := [], undone := [] })).state = 0 :=
  recordN_undoN_roundtrip [actAdd5, actAdd7]
    { state := (0 : Int), done := [], undone := [] }
    (by
      intro a ha s
      simp only [List.mem_cons, List.mem_singleton] at ha
      rcases ha with h | h | h
      · subst h; simp [actAdd5]
      · subst h; simp [actAdd7]
      · cases h)

/-- C4: when App::addNode is called with a type name whose factory
constructor throws, the error is surfaced as a postponed message dialog and
nothing else changes: no undo record is created, the done and undone stacks,
the node tree and the selection are untouched. -/
theorem addNode_ctor_throw (reg : List String) (class_ name : String) (app : App)
    (h : class_ ∉ reg) :
    (addNode reg class_ name app).u = app.u ∧
      (addNode reg class_ name app).nextId = app.nextId ∧
      (addNode reg class_ name app).postponed = app.postponed ++ [ctorErrMsg class_] := by
  simp only [addNode, if_neg h]
  exact ⟨trivial, trivial, trivial⟩

/-- Witness for C4: an unregistered type name against a Root-only factory. -/
theorem addNode_ctor_throw_witness :
    (addNode ["Root"] "Ghost" "g" demoApp).u = demoApp.u ∧
      (addNode ["Root"] "Ghost" "g" demoApp).nextId = demoApp.nextId ∧
      (addNode ["Root"] "Ghost" "g" demoApp).postponed =
        demoApp.postponed ++ [ctorErrMsg "Ghost"] :=
  addNode_ctor_throw ["Root"] "Ghost" "g" demoApp (by decide)

/-- C5 evidence: the undo closure recorded by App::addNode runs Node::del on
the node selected at undo time, not on the node the do closure attached.
Starting from root 0 with child 5 and empty selection, addNode attaches node
1 and selects it; after the selection drifts to node 5 the undo closure
removes node 5, leaves node 1 in the tree, and only the selection
restoration behaves as recorded. -/
theorem addNode_undo_wrong_node :
    containsId 1 c5AfterUndo.root = true ∧
      containsId 5 c5AfterUndo.root = false ∧
      c5AfterUndo.selected = none ∧
      containsId 1 c5AfterDo.root = true ∧
      containsId 5 c5AfterDo.root = true := by
  decide

theorem countBase_append (l1 l2 : List RenderEffect) :
    countBase (l1 ++ l2) = countBase l1 + countBase l2 := by
  induction l1 with
  | nil => simp [countBase]
  | cons e rest ih => cases e <;> simp [countBase, ih] <;> omega

theorem countBase_chatLines (hgt dimY : Int) (dn : String) :
    ∀ (lns : List String) (y : Int), countBase (chatLines hgt dimY dn lns y).1 = 0 := by
  intro lns
  induction lns with
  | nil => intro y; rfl
  | cons ln rest ih =>
    intro y
    simp only [chatLines]
    by_cases h : y > hgt
    · rw [if_pos h]; rfl
    · rw [if_neg h]
      simp only
      rw [countBase_append, ih (y + dimY)]
      by_cases hr : rest.isEmpty <;> simp [hr, countBase]

theorem countBase_chatRenderMsg (getSize : String → Int × Int) (wdt hgt : Int)
    (m : ChatMsg) (y : Int) : countBase (chatRenderMsg getSize wdt hgt m y).1 = 0 := by
  simp only [chatRenderMsg, countBase]
  exact countBase_chatLines _ _ _ _ _

theorem countBase_chatMsgsLoop (getSize : String → Int × Int) (wdt hgt : Int) :
    ∀ (msgs : List ChatMsg) (y : Int),
      countBase (chatMsgsLoop getSize wdt hgt msgs y) = 0 := by
  intro msgs
  induction msgs with
  | nil => intro y; rfl
  | cons m rest ih =>
    intro y
    simp only [chatMsgsLoop]
    by_cases h : (chatRenderMsg getSize wdt hgt m y).2 > hgt
    · rw [if_pos h]
      exact countBase_chatRenderMsg getSize wdt hgt m y
    · rw [if_neg h, countBase_append, countBase_chatRenderMsg, ih]

/-- C6: every call to Sprite::render and every call to Chat::render invokes
the base Node::render exactly once — also when the chat overlay is hidden —
so the render pass always propagates to the children of the node. -/
theorem render_calls_base_once (s : SpriteS) (dt : Int) (hovered selected : Option Nat)
    (showChat : Bool) (getSize : String → Int × Int) (wdt hgt : Int)
    (msgs : List ChatMsg) :
    countBase (spriteRender s dt hovered selected) = 1 ∧
      countBase (chatRender showChat getSize wdt hgt msgs dt hovered selected) = 1 := by
  refine ⟨rfl, ?_⟩
  cases showChat with
  | false => rfl
  | true =>
    simp only [chatRender, Bool.not_true, Bool.false_eq_true, if_false]
    rw [countBase_append, countBase_chatMsgsLoop]
    rfl

/-- C8: Chat::getVoice returns the mapped voice for a name present in
voicesMap; otherwise, when the voices list is nonempty, it returns the
in-bounds element at index (hash of the name xor 1) modulo the list length;
when the voices list is empty the unmapped case computes a modulo by zero
feeding an out-of-bounds vector access (modelled as none), so the nonempty
precondition is necessary. -/
theorem getVoice_spec (voicesMap : List (String × String)) (voices : List String)
    (hash : String → Nat) (n : String) :
    (∀ v, lookupVM voicesMap n = some v → getVoice voicesMap voices hash n = some v) ∧
      (lookupVM voicesMap n = none → voices ≠ [] →
        ∃ hlt : (hash n ^^^ 1) % voices.length < voices.length,
          getVoice voicesMap voices hash n =
            some (voices.get ⟨(hash n ^^^ 1) % voices.length, hlt⟩)) ∧
      (lookupVM voicesMap n = none → voices = [] →
        getVoice voicesMap voices hash n = none) := by
  refine ⟨?_, ?_, ?_⟩
  · intro v hv
    simp [getVoice, hv]
  · intro hnone hne
    have hpos : 0 < voices.length := List.length_pos.mpr hne
    have hlt : (hash n ^^^ 1) % voices.length < voices.length := Nat.mod_lt _ hpos
    refine ⟨hlt, ?_⟩
    simp [getVoice, hnone, List.getElem?_eq_getElem hlt]
  · intro hnone hemp
    subst hemp
    simp [getVoice, hnone]

/-- Witness for C8: an unmapped name against two voices picks index 1. -/
theorem getVoice_spec_witness :
    getVoice [("alice", "va")] ["x", "y"] (fun t => t.length) "bb" = some "y" := by
  obtain ⟨h1, h2, h3⟩ := getVoice_spec [("alice", "va")] ["x", "y"] (fun t => t.length) "bb"
  obtain ⟨hlt, he⟩ := h2 (by decide) (by decide)
  rw [he]
  rfl

/-- C9: Sprite::renderUi clamps cols, rows and numFrames back to at least 1
for every edited value, and under that invariant every division in
Sprite::w, Sprite::h and Sprite::isTransparent has a nonzero divisor (the
guarded models return some). -/
theorem spriteUi_clamp_no_div_zero :
    (∀ (icols irows inumFrames : Int) (s : SpriteS),
        spriteInv (spriteRenderUi icols irows inumFrames s)) ∧
      (∀ (s : SpriteS) (imageData : Option (Int → Int)) (vx vy : Int), spriteInv s →
        (spriteW s).isSome ∧ (spriteH s).isSome ∧
          (spriteIsTransparent imageData s vx vy).isSome) := by
  constructor
  · intro ic ir inf s
    refine ⟨?_, ?_, ?_⟩ <;> simp only [spriteInv, spriteRenderUi] <;> split <;> omega
  · intro s imageData vx vy hinv
    obtain ⟨hc, hr, hn⟩ := hinv
    have hc0 : ¬s.cols = 0 := by omega
    have hr0 : ¬s.rows = 0 := by omega
    refine ⟨by simp [spriteW, hc0], by simp [spriteH, hr0], ?_⟩
    by_cases h3 : s.texCh = 3
    · simp [spriteIsTransparent, h3]
    · simp only [spriteIsTransparent, spriteW, spriteH, if_neg hc0, if_neg hr0,
        if_neg h3]
      rw [if_neg (by omega : ¬(s.numFrames = 0 ∨ s.cols = 0))]
      split
      · rfl
      · cases imageData <;> rfl

/-- Witness for C9: the concrete sprite state satisfies the invariant and
all three guarded operations return some. -/
theorem spriteUi_clamp_no_div_zero_witness :
    (spriteW demoSprite).isSome ∧ (spriteH demoSprite).isSome ∧
      (spriteIsTransparent none demoSprite 0 0).isSome :=
  spriteUi_clamp_no_div_zero.2 demoSprite none 0 0 ⟨by decide, by decide, by decide⟩

theorem eqW_true_bounds {words : List String} {i j w : Nat} (h : eqW words i j w = true) :
    i + w ≤ words.length ∧ j + w ≤ words.length := by
  unfold eqW at h
  by_cases h1 : i + w > words.length
  · rw [if_pos h1] at h; simp at h
  · rw [if_neg h1] at h
    by_cases h2 : j + w > words.length
    · rw [if_pos h2] at h; simp at h
    · omega

theorem firstFailAux_ge (words : List String) (i w : Nat) :
    ∀ fuel r, r ≤ firstFailAux words i w fuel r := by
  intro fuel
  induction fuel with
  | zero => intro r; simp [firstFailAux]
  | succ fuel ih =>
    intro r
    simp only [firstFailAux]
    split
    · exact le_trans (Nat.le_succ r) (ih (r + 1))
    · exact le_refl r

theorem firstFailAux_eq_true_of_lt (words : List String) (i w : Nat) :
    ∀ fuel r r2, r ≤ r2 → r2 < firstFailAux words i w fuel r →
      eqW words i (i + r2 * w) w = true := by
  intro fuel
  induction fuel with
  | zero =>
    intro r r2 h1 h2
    simp only [firstFailAux] at h2
    omega
  | succ fuel ih =>
    intro r r2 h1 h2
    simp only [firstFailAux] at h2
    by_cases he : eqW words i (i + r * w) w = true
    · rw [if_pos he] at h2
      by_cases hr : r2 = r
      · subst hr; exact he
      · exact ih (r + 1) r2 (by omega) h2
    · rw [if_neg he] at h2
      omega

theorem firstFailAux_fail (words : List String) (i w : Nat) :
    ∀ fuel r, firstFailAux words i w fuel r < r + fuel →
      eqW words i (i + firstFailAux words i w fuel r * w) w = false := by
  intro fuel
  induction fuel with
  | zero =>
    intro r h
    simp only [firstFailAux] at h
    exact absurd h (by omega)
  | succ fuel ih =>
    intro r h
    simp only [firstFailAux] at h ⊢
    by_cases he : eqW words i (i + r * w) w = true
    · rw [if_pos he] at h ⊢
      exact ih (r + 1) (by omega)
    · rw [if_neg he] at h ⊢
      exact Bool.eq_false_iff.mpr he

theorem firstFail_le (words : List String) (i w : Nat) (hw : 1 ≤ w) :
    firstFail words i w ≤ words.length + 1 := by
  by_contra hgt
  push_neg at hgt
  unfold firstFail at hgt
  have hmem := firstFailAux_eq_true_of_lt words i w (words.length + 1) 1
    (words.length + 1) (by omega) hgt
  have hb := eqW_true_bounds hmem
  have hmul : (words.length + 1) * 1 ≤ (words.length + 1) * w :=
    Nat.mul_le_mul_left _ hw
  omega

theorem firstFail_fail (words : List String) (i w : Nat) (hw : 1 ≤ w) :
    eqW words i (i + firstFail words i w * w) w = false := by
  have hle := firstFail_le words i w hw
  unfold firstFail at hle ⊢
  exact firstFailAux_fail words i w (words.length + 1) 1 (by omega)

theorem firstFail_mem (words : List String) (i w r2 : Nat) (h1 : 1 ≤ r2)
    (h2 : r2 < firstFail words i w) : eqW words i (i + r2 * w) w = true := by
  unfold firstFail at h2
  exact firstFailAux_eq_true_of_lt words i w (words.length + 1) 1 r2 h1 h2

theorem firstFailAux_two_steps (words : List String) (i w : Nat) :
    ∀ fuel r, 2 ≤ fuel → eqW words i (i + r * w) w = true →
      eqW words i (i + (r + 1) * w) w = true →
      r + 2 ≤ firstFailAux words i w fuel r := by
  intro fuel r hf h1 h2
  match fuel, hf with
  | fuel + 2, _ =>
    have e1 : firstFailAux words i w (fuel + 2) r =
        firstFailAux words i w (fuel + 1) (r + 1) := by
      simp only [firstFailAux, if_pos h1]
    have e2 : firstFailAux words i w (fuel + 1) (r + 1) =
        firstFailAux words i w fuel (r + 2) := by
      simp only [firstFailAux]
      rw [if_pos h2]
    rw [e1, e2]
    exact firstFailAux_ge words i w fuel (r + 2)

theorem three_le_firstFail_iff (words : List String) (i w : Nat) (hw : 1 ≤ w) :
    3 ≤ firstFail words i w ↔
      eqW words i (i + w) w = true ∧ eqW words i (i + 2 * w) w = true := by
  constructor
  · intro h3
    have e1 := firstFail_mem words i w 1 (by omega) (by omega)
    have e2 := firstFail_mem words i w 2 (by omega) (by omega)
    rw [one_mul] at e1
    exact ⟨e1, e2⟩
  · rintro ⟨h1, h2⟩
    have hb := eqW_true_bounds h1
    unfold firstFail
    have h12 := firstFailAux_two_steps words i w (words.length + 1) 1
      (by omega) (by rw [one_mul]; exact h1) (by exact h2)
    omega

theorem findCollapse_some_spec {ws : List String} {w i : Nat}
    (h : findCollapse ws = some (w, i)) :
    1 ≤ w ∧ 2 * w + 2 ≤ ws.length ∧ i + w < ws.length ∧ 3 ≤ firstFail ws i w := by
  unfold findCollapse at h
  rw [List.findSome?_eq_some_iff] at h
  obtain ⟨l1, a, l2, hdec, ha, _⟩ := h
  have haw : a ∈ List.range' 1 (ws.length / 2 - 1) := by
    rw [hdec]; exact List.mem_append_right _ (List.mem_cons_self _ _)
  rw [List.mem_range'_1] at haw
  rw [List.findSome?_eq_some_iff] at ha
  obtain ⟨m1, b, m2, hdec2, hb, _⟩ := ha
  have hbi : b ∈ List.range (ws.length - a) := by
    rw [hdec2]; exact List.mem_append_right _ (List.mem_cons_self _ _)
  rw [List.mem_range] at hbi
  by_cases h3 : 3 ≤ firstFail ws b a
  · rw [if_pos h3] at hb
    injection hb with hpair
    have haeq : a = w := congrArg Prod.fst hpair
    have hbeq : b = i := congrArg Prod.snd hpair
    subst haeq
    subst hbeq
    have hdiv : a + 1 ≤ ws.length / 2 := by omega
    have hmul := (Nat.le_div_iff_mul_le (by omega : 0 < 2)).mp hdiv
    exact ⟨haw.1, by omega, by omega, h3⟩
  · rw [if_neg h3] at hb
    cases hb

theorem findCollapse_none_spec {ws : List String}
    (h : findCollapse ws = none) (w i : Nat) (hw : 1 ≤ w)
    (hlen : 2 * w + 2 ≤ ws.length) :
    ¬(eqW ws i (i + w) w = true ∧ eqW ws i (i + 2 * w) w = true) := by
  rintro ⟨h1, h2⟩
  have h3 : 3 ≤ firstFail ws i w := (three_le_firstFail_iff ws i w hw).mpr ⟨h1, h2⟩
  unfold findCollapse at h
  rw [List.findSome?_eq_none_iff] at h
  have hwmem : w ∈ List.range' 1 (ws.length / 2 - 1) := by
    rw [List.mem_range'_1]
    have hdiv : w + 1 ≤ ws.length / 2 :=
      (Nat.le_div_iff_mul_le (by omega : 0 < 2)).mpr (by omega)
    omega
  have hinner := h w hwmem
  rw [List.findSome?_eq_none_iff] at hinner
  have hb := eqW_true_bounds h2
  have himem : i ∈ List.range (ws.length - w) := by
    rw [List.mem_range]; omega
  have hcontra := hinner i himem
  rw [if_pos h3] at hcontra
  cases hcontra

theorem collapseAt_length {ws : List String} {w i : Nat}
    (h : findCollapse ws = some (w, i)) :
    (collapseAt ws w i).length + 2 ≤ ws.length := by
  obtain ⟨hw, hlen, hiw, h3⟩ := findCollapse_some_spec h
  have hm := firstFail_mem ws i w (firstFail ws i w - 1) (by omega) (by omega)
  have hb := eqW_true_bounds hm
  have heq : (firstFail ws i w - 1) * w + w = firstFail ws i w * w := by
    rw [Nat.sub_mul, one_mul]
    have h2 : w ≤ firstFail ws i w * w := Nat.le_mul_of_pos_left w (by omega)
    omega
  have hrange : i + firstFail ws i w * w ≤ ws.length := by omega
  have hmul : 3 * w ≤ firstFail ws i w * w := Nat.mul_le_mul_right w h3
  simp only [collapseAt, List.length_append, List.length_take, List.length_drop]
  have hmin : min (i + w) ws.length = i + w := min_eq_left (by omega)
  rw [hmin]
  omega

theorem dedupLoop_fix : ∀ (fuel : Nat) (ws : List String), ws.length ≤ fuel →
    findCollapse (dedupLoop fuel ws) = none := by
  intro fuel
  induction fuel with
  | zero =>
    intro ws hle
    have hnil : ws = [] := List.length_eq_zero.mp (by omega)
    subst hnil
    rfl
  | succ fuel ih =>
    intro ws hle
    cases h : findCollapse ws with
    | none =>
      simp only [dedupLoop, h]
    | some p =>
      obtain ⟨w, i⟩ := p
      simp only [dedupLoop, h]
      have hdec := collapseAt_length h
      exact ih (collapseAt ws w i) (by omega)

theorem dedupLoop_reach : ∀ (fuel : Nat) (ws : List String),
    CollapseStar ws (dedupLoop fuel ws) := by
  intro fuel
  induction fuel with
  | zero => intro ws; exact CollapseStar.refl ws
  | succ fuel ih =>
    intro ws
    cases h : findCollapse ws with
    | none =>
      simp only [dedupLoop, h]
      exact CollapseStar.refl ws
    | some p =>
      obtain ⟨w, i⟩ := p
      simp only [dedupLoop, h]
      exact CollapseStar.step ws w i _ h (ih (collapseAt ws w i))

/-- C7 counterexample: a string that is one word repeated exactly three
times is returned unchanged, because the scanned block widths w satisfy
w < wordCount / 2 and 1 < 3 / 2 fails; the claim as stated demands the
output keep exactly one occurrence. -/
theorem dedup_three_copies_unchanged :
    dedup "a a a" = "a a a" ∧ dedup "a a a" ≠ "a" := by
  constructor
  · decide
  · decide

/-- C7 (amended): for every input string, dedup returns the input word list
transformed by finitely many collapse steps, each replacing a block repeated
at least three times consecutively by its single first occurrence and
leaving all other words unchanged (the output rejoined with single spaces);
and the output word list retains no block of w consecutive words repeated at
least three times in a row for any width with 2 * w + 2 ≤ word count.
Widths failing that bound escape the scan, so in particular a string that is
exactly three copies of one word is returned unchanged. -/
theorem dedup_collapses_repeats (s : String) :
    CollapseStar (splitGetline s) (dedupWords s) ∧
      ∀ w i, 1 ≤ w → 2 * w + 2 ≤ (dedupWords s).length →
        ¬(eqW (dedupWords s) i (i + w) w = true ∧
          eqW (dedupWords s) i (i + 2 * w) w = true) := by
  constructor
  · exact dedupLoop_reach _ _
  · intro w i hw hlen
    exact findCollapse_none_spec (dedupLoop_fix _ _ le_rfl) w i hw hlen

/-- Witness for the amended C7: in the deduplicated words of a concrete
string the first two single-word blocks no longer repeat. -/
theorem dedup_collapses_repeats_witness :
    ¬(eqW (dedupWords "a b c d a a a x") 0 (0 + 1) 1 = true ∧
      eqW (dedupWords "a b c d a a a x") 0 (0 + 2 * 1) 1 = true) :=
  (dedup_collapses_repeats "a b c d a a a x").2 1 0 (by decide) (by decide)

/-- C10: dedup terminates on every input: every collapse the scan performs
removes at least two words, so the word count strictly decreases; the inner
repetition scan always reaches a failing comparison (the block comparison
fails once the repeated block would extend past the end of the list); and
with fuel equal to the initial word count the outer loop reaches a word list
on which a full scan makes no update. -/
theorem dedup_terminates :
    (∀ (ws : List String) (w i : Nat), findCollapse ws = some (w, i) →
        (collapseAt ws w i).length + 2 ≤ ws.length) ∧
      (∀ (ws : List String) (w i : Nat), 1 ≤ w →
        eqW ws i (i + firstFail ws i w * w) w = false) ∧
      ∀ s : String, findCollapse (dedupWords s) = none := by
  refine ⟨?_, ?_, ?_⟩
  · intro ws w i h
    exact collapseAt_length h
  · intro ws w i hw
    exact firstFail_fail ws i w hw
  · intro s
    exact dedupLoop_fix _ _ le_rfl

/-- Witness for C10: a concrete collapse found by the scan removes at least
two of the four words. -/
theorem dedup_terminates_witness :
    (collapseAt ["a", "a", "a", "a"] 1 0).length + 2 ≤ 4 :=
  dedup_terminates.1 ["a", "a", "a", "a"] 1 0 (by decide)

end VT

